import Mathlib

/-!
Verification of the messaging/threading logic of a small marketplace web
application (`core/models.py`, `core/views.py`).

The embedding models the message store as a list of rows (`List Message`)
in insertion order; Django querysets become list filters, `order_by`
becomes a stable insertion sort on `sent_at`, `get_object_or_404` becomes
`List.find?`, and each view's read/write behaviour becomes an explicit
function from the store to the store.  Users are identified by their
primary key (`Nat`); `auto_now_add` timestamps are passed explicitly.
-/

/-- A row of the `Message` model (`core/models.py`).  Foreign keys are
stored as primary keys: `sender`/`receiver` are user pks,
`parent_message` and `conversation_starter` are nullable message pks. -/
structure Message where
  id : Nat
  sender : Nat
  receiver : Nat
  subject : String
  body : String
  sent_at : Nat
  is_read : Bool
  parent_message : Option Nat
  conversation_starter : Option Nat
  is_deleted_by_sender : Bool
  is_deleted_by_receiver : Bool
deriving Repr, DecidableEq

/-- The visibility filter used by every messaging queryset:
`Q(sender=user, is_deleted_by_sender=False) | Q(receiver=user,
is_deleted_by_receiver=False)` (`core/views.py`). -/
def visibleFilter (u : Nat) (m : Message) : Bool :=
  (m.sender == u && !m.is_deleted_by_sender) ||
    (m.receiver == u && !m.is_deleted_by_receiver)

/-- The visibility predicate as the specification states it. -/
def visibleSpec (u : Nat) (m : Message) : Prop :=
  (m.sender = u ∧ m.is_deleted_by_sender = false) ∨
    (m.receiver = u ∧ m.is_deleted_by_receiver = false)

/-- The canonical thread head of a message: its `conversation_starter`
when set, otherwise the message itself (glossary of the design). -/
def headOf (m : Message) : Nat :=
  m.conversation_starter.getD m.id

/-- `order_by('sent_at')`: stable sort, oldest first. -/
def orderBySentAt (l : List Message) : List Message :=
  l.insertionSort (fun a b => a.sent_at ≤ b.sent_at)

/-- `order_by('-sent_at')`: stable sort, newest first. -/
def orderBySentAtDesc (l : List Message) : List Message :=
  l.insertionSort (fun a b => b.sent_at ≤ a.sent_at)

/-- `Message.objects.filter(Q(conversation_starter=starter) |
Q(pk=starter.pk))`: all rows of the thread whose head has pk
`starterId`. -/
def threadMessages (db : List Message) (starterId : Nat) : List Message :=
  db.filter (fun m => m.conversation_starter == some starterId || m.id == starterId)

/-- The inbox loop body: the latest message of the thread headed at
`starterId` still visible to `u`
(`.filter(visible).order_by('-sent_at').first()`). -/
def latestVisibleInThread (db : List Message) (u : Nat) (starterId : Nat) :
    Option Message :=
  (orderBySentAtDesc ((threadMessages db starterId).filter (visibleFilter u))).head?

/-- `InboxView.get_queryset`, steps 1-3: the distinct conversation-starter
pks reachable from the messages visible to `u` (the
`values_list('conversation_starter__pk')` of the involved messages,
together with the pks of involved messages whose own
`conversation_starter` is null, `None` discarded, deduplicated). -/
def inboxStarterPks (db : List Message) (u : Nat) : List Nat :=
  (((db.filter (visibleFilter u)).map (fun m => m.conversation_starter)) ++
      ((db.filter (fun m => visibleFilter u m && m.conversation_starter.isNone)).map
        (fun m => (some m.id : Option Nat)))).filterMap id |>.dedup

/-- `SentMessagesView.get_queryset`, head discovery: starter pks of
messages sent by `u` and not deleted by `u` (self-started ones first, as
in the code), `None` discarded, deduplicated. -/
def sentStarterPks (db : List Message) (u : Nat) : List Nat :=
  (((db.filter (fun m =>
        m.sender == u && !m.is_deleted_by_sender && m.conversation_starter.isNone)).map
      (fun m => (some m.id : Option Nat))) ++
      ((db.filter (fun m => m.sender == u && !m.is_deleted_by_sender)).map
        (fun m => m.conversation_starter))).filterMap id |>.dedup

/-- `Message.objects.filter(pk__in=...).filter(visible)`: the candidate
thread heads themselves re-filtered by visibility to `u` (the queryset
carries the model's default `ordering = ['sent_at']`). -/
def validStartersFor (db : List Message) (u : Nat) (pks : List Nat) : List Message :=
  orderBySentAt (db.filter (fun m => pks.contains m.id && visibleFilter u m))

/-- `InboxView.get_queryset`: one summary row (latest visible message)
per valid conversation starter, sorted by `sent_at` descending. -/
def inbox_get_queryset (db : List Message) (u : Nat) : List Message :=
  orderBySentAtDesc
    ((validStartersFor db u (inboxStarterPks db u)).filterMap
      (fun starter => latestVisibleInThread db u starter.id))

/-- `SentMessagesView.get_queryset`: same aggregation over the heads
discovered from the user's sent messages. -/
def sent_get_queryset (db : List Message) (u : Nat) : List Message :=
  orderBySentAtDesc
    ((validStartersFor db u (sentStarterPks db u)).filterMap
      (fun starter => latestVisibleInThread db u starter.id))

/-- `MessageDetailView.get_queryset`: messages the user is involved in
and has not deleted. -/
def messageDetail_get_queryset (db : List Message) (u : Nat) : List Message :=
  db.filter (visibleFilter u)

/-- `MessageDetailView.get_object`: fetch by pk through the visibility
queryset; if the fetched object is not its own conversation starter,
re-fetch the starter through the same queryset. -/
def messageDetail_get_object (db : List Message) (u : Nat) (pk : Nat) :
    Option Message :=
  match (messageDetail_get_queryset db u).find? (fun m => m.id == pk) with
  | none => none
  | some obj =>
    match obj.conversation_starter with
    | some s =>
      if s ≠ obj.id then
        (messageDetail_get_queryset db u).find? (fun m => m.id == s)
      else some obj
    | none => some obj

/-- `MessageDetailView.get_context_data`: all messages of the resolved
thread visible to `u`, ordered by `sent_at` ascending. -/
def conversation_messages (db : List Message) (u : Nat) (head : Message) :
    List Message :=
  orderBySentAt ((threadMessages db head.id).filter (visibleFilter u))

/-- The effect of the mark-as-read loop of `get_context_data` on one
stored row: when some conversation message with this row's pk satisfies
`user == msg.receiver and not msg.is_read`, that message is saved with
`is_read = True` over the row; otherwise the row is untouched. -/
def markF (u : Nat) (convMsgs : List Message) (m : Message) : Message :=
  match convMsgs.find? (fun c => c.id == m.id && c.receiver == u && !c.is_read) with
  | some c => { c with is_read := true }
  | none => m

/-- The mark-as-read loop of `get_context_data` as a store update. -/
def mark_read_update (u : Nat) (convMsgs : List Message) (db : List Message) :
    List Message :=
  db.map (markF u convMsgs)

/-- The whole of `MessageDetailView` for a GET: resolve the head, compute
the conversation list, and apply the mark-as-read side effect.  Returns
`(head, conversation messages, updated store)`. -/
def message_detail_view (db : List Message) (u : Nat) (pk : Nat) :
    Option (Message × List Message × List Message) :=
  match messageDetail_get_object db u pk with
  | none => none
  | some head =>
    let msgs := conversation_messages db u head
    some (head, msgs, mark_read_update u msgs db)

/-- Error taxonomy of the messaging views. -/
inductive ViewError where
  | notFound
deriving Repr, DecidableEq

/-- The save portion of `SendMessageView.form_valid`: insert the new row
(`newId` is the pk the insert assigns, `now` the `auto_now_add`
timestamp), then back-fill a still-null `conversation_starter` with the
new row's own pk and re-save. -/
def sendSave (db : List Message) (sender receiver : Nat)
    (subject body : String) (parentRef starter : Option Nat) (newId now : Nat) :
    Message × List Message :=
  let msg : Message :=
    { id := newId, sender := sender, receiver := receiver, subject := subject,
      body := body, sent_at := now, is_read := false, parent_message := parentRef,
      conversation_starter := starter, is_deleted_by_sender := false,
      is_deleted_by_receiver := false }
  let db1 := db ++ [msg]
  if msg.conversation_starter.isNone then
    let msg2 := { msg with conversation_starter := some msg.id }
    (msg2, db1.map (fun m => if m.id == msg.id then msg2 else m))
  else
    (msg, db1)

/-- `SendMessageView.form_valid` proper: resolve the parent when a
`parent_pk` is given (404 when absent) and compute the initial
`conversation_starter` (`parent.conversation_starter or parent_message`),
then perform the save. -/
def sendMessage (db : List Message) (sender receiver : Nat)
    (subject body : String) (parentPk : Option Nat) (newId now : Nat) :
    Except ViewError (Message × List Message) :=
  match parentPk with
  | some p =>
    match db.find? (fun m => m.id == p) with
    | none => Except.error ViewError.notFound
    | some parent =>
      Except.ok (sendSave db sender receiver subject body (some p)
        (some (parent.conversation_starter.getD parent.id)) newId now)
  | none =>
    Except.ok (sendSave db sender receiver subject body none none newId now)

/-- Outcome of `delete_conversation_view` (404, the "not authorized"
redirect, or the success redirect). -/
inductive DeleteResult where
  | notFound
  | forbidden
  | deleted
deriving Repr, DecidableEq

/-- The per-message body of the deletion loop: set the soft-delete flag
for each role the user holds on the message. -/
def applyDelete (u : Nat) (m : Message) : Message :=
  let m1 := if m.sender == u then { m with is_deleted_by_sender := true } else m
  if m1.receiver == u then { m1 with is_deleted_by_receiver := true } else m1

/-- `delete_conversation_view`: fetch the starter by pk (unfiltered,
404 when absent), refuse non-participants, then flag every message of
the thread for the requesting user.  Returns the outcome together with
the resulting store (unchanged on the two error paths). -/
def delete_conversation_view (db : List Message) (u : Nat) (pk : Nat) :
    DeleteResult × List Message :=
  match db.find? (fun m => m.id == pk) with
  | none => (DeleteResult.notFound, db)
  | some starter =>
    if !(starter.sender == u || starter.receiver == u) then
      (DeleteResult.forbidden, db)
    else
      (DeleteResult.deleted,
        db.map (fun m =>
          if m.conversation_starter == some starter.id || m.id == starter.id then
            applyDelete u m
          else m))

/-- Well-formedness of a message store, as produced by the composer:
pks are distinct, and every non-null `conversation_starter` points to a
row that is its own starter (a thread head). -/
def WellFormed (db : List Message) : Prop :=
  (db.map Message.id).Nodup ∧
    ∀ m ∈ db, m.conversation_starter = none ∨
      ∃ h ∈ db, m.conversation_starter = some h.id ∧ h.conversation_starter = some h.id

/-! ### Concrete stores used to evaluate the theorems -/

/-- A thread head: user 1 wrote to user 2, nobody deleted anything. -/
def msgHead : Message :=
  { id := 1, sender := 1, receiver := 2, subject := "hi", body := "hello",
    sent_at := 0, is_read := false, parent_message := none,
    conversation_starter := some 1, is_deleted_by_sender := false,
    is_deleted_by_receiver := false }

/-- User 2's reply to `msgHead`. -/
def msgReply : Message :=
  { id := 2, sender := 2, receiver := 1, subject := "re", body := "answer",
    sent_at := 1, is_read := false, parent_message := some 1,
    conversation_starter := some 1, is_deleted_by_sender := false,
    is_deleted_by_receiver := false }

/-- A two-message thread, fully visible to both participants. -/
def dbGood : List Message := [msgHead, msgReply]

/-- The same head, but soft-deleted on the receiver's side. -/
def msgHeadDel : Message := { msgHead with is_deleted_by_receiver := true }

/-- A thread whose head user 2 soft-deleted before user 2's reply was
written: the reply is still visible to user 2, the head is not. -/
def dbPartial : List Message := [msgHeadDel, msgReply]

/-! ### General list helpers -/

theorem head?_mem {α : Type} {l : List α} {a : α} (h : l.head? = some a) : a ∈ l := by
  cases l <;> simp_all

theorem filter_map_comm {α β : Type} (f : α → β) (p : β → Bool) (l : List α) :
    (l.map f).filter p = (l.filter (fun a => p (f a))).map f := by
  induction l with
  | nil => rfl
  | cons a t ih =>
    by_cases h : p (f a) <;> simp [List.filter_cons, h, ih]

theorem find?_map_comm {α : Type} (f : α → α) (p : α → Bool) (l : List α)
    (h : ∀ a ∈ l, p (f a) = p a) :
    (l.map f).find? p = (l.find? p).map f := by
  induction l with
  | nil => rfl
  | cons a t ih =>
    have ha := h a (by simp)
    by_cases hp : p a
    · simp [List.find?_cons, ha, hp]
    · have : p a = false := by simpa using hp
      simp only [List.map_cons, List.find?_cons, ha, this]
      exact ih (fun a ha => h a (by simp [ha]))

/-- In a store with distinct pks, looking a member up by its own pk
returns that member. -/
theorem find?_id_eq_some {l : List Message} (hN : (l.map Message.id).Nodup)
    {x : Message} (hx : x ∈ l) : l.find? (fun m => m.id == x.id) = some x := by
  induction l with
  | nil => simp at hx
  | cons a t ih =>
    simp only [List.map_cons, List.nodup_cons] at hN
    rcases List.mem_cons.mp hx with rfl | hxt
    · simp [List.find?_cons]
    · have hne : (a.id == x.id) = false := by
        simp only [beq_eq_false_iff_ne, ne_eq]
        intro h
        exact hN.1 (h ▸ List.mem_map_of_mem Message.id hxt)
      simp only [List.find?_cons, hne]
      exact ih hN.2 hxt

theorem eq_of_id_eq {l : List Message} (hN : (l.map Message.id).Nodup)
    {a b : Message} (ha : a ∈ l) (hb : b ∈ l) (h : a.id = b.id) : a = b :=
  List.inj_on_of_nodup_map hN ha hb h

theorem nodup_ids_filter {l : List Message} (hN : (l.map Message.id).Nodup)
    (p : Message → Bool) : ((l.filter p).map Message.id).Nodup :=
  ((List.filter_sublist l).map Message.id).nodup hN

/-! ### Sorting facts -/

instance : IsTotal Message (fun a b => a.sent_at ≤ b.sent_at) :=
  ⟨fun a b => Nat.le_total a.sent_at b.sent_at⟩

instance : IsTrans Message (fun a b => a.sent_at ≤ b.sent_at) :=
  ⟨fun _ _ _ hab hbc => Nat.le_trans hab hbc⟩

instance : IsTotal Message (fun a b => b.sent_at ≤ a.sent_at) :=
  ⟨fun a b => Nat.le_total b.sent_at a.sent_at⟩

instance : IsTrans Message (fun a b => b.sent_at ≤ a.sent_at) :=
  ⟨fun _ _ _ hab hbc => Nat.le_trans hbc hab⟩

theorem orderBySentAt_perm (l : List Message) : List.Perm (orderBySentAt l) l :=
  List.perm_insertionSort _ l

theorem orderBySentAtDesc_perm (l : List Message) :
    List.Perm (orderBySentAtDesc l) l :=
  List.perm_insertionSort _ l

theorem mem_orderBySentAt {l : List Message} {x : Message} :
    x ∈ orderBySentAt l ↔ x ∈ l :=
  (orderBySentAt_perm l).mem_iff

theorem mem_orderBySentAtDesc {l : List Message} {x : Message} :
    x ∈ orderBySentAtDesc l ↔ x ∈ l :=
  (orderBySentAtDesc_perm l).mem_iff

theorem sorted_orderBySentAt (l : List Message) :
    List.Sorted (fun a b => a.sent_at ≤ b.sent_at) (orderBySentAt l) :=
  List.sorted_insertionSort _ l

theorem sorted_orderBySentAtDesc (l : List Message) :
    List.Sorted (fun a b => b.sent_at ≤ a.sent_at) (orderBySentAtDesc l) :=
  List.sorted_insertionSort _ l

/-! ### Domain lemmas -/

theorem visibleFilter_eq_true_iff (u : Nat) (m : Message) :
    visibleFilter u m = true ↔ visibleSpec u m := by
  simp [visibleFilter, visibleSpec, Bool.or_eq_true, Bool.and_eq_true,
    beq_iff_eq, Bool.not_eq_true']

theorem mem_messageDetail_get_queryset {db : List Message} {u : Nat} {m : Message} :
    m ∈ messageDetail_get_queryset db u ↔ m ∈ db ∧ visibleFilter u m = true := by
  simp [messageDetail_get_queryset, List.mem_filter]

theorem mem_threadMessages {db : List Message} {sid : Nat} {m : Message} :
    m ∈ threadMessages db sid ↔
      m ∈ db ∧ (m.conversation_starter = some sid ∨ m.id = sid) := by
  simp [threadMessages, List.mem_filter, Bool.or_eq_true, beq_iff_eq]

theorem latestVisibleInThread_mem {db : List Message} {u sid : Nat} {r : Message}
    (h : latestVisibleInThread db u sid = some r) :
    r ∈ db ∧ visibleFilter u r = true ∧
      (r.conversation_starter = some sid ∨ r.id = sid) := by
  have hr := head?_mem h
  rw [mem_orderBySentAtDesc, List.mem_filter] at hr
  have ht := mem_threadMessages.mp hr.1
  exact ⟨ht.1, hr.2, ht.2⟩

theorem latestVisibleInThread_isSome {db : List Message} {u sid : Nat} {x : Message}
    (hx : x ∈ db) (hvis : visibleFilter u x = true)
    (hth : x.conversation_starter = some sid ∨ x.id = sid) :
    (latestVisibleInThread db u sid).isSome = true := by
  have hmem : x ∈ orderBySentAtDesc ((threadMessages db sid).filter (visibleFilter u)) := by
    rw [mem_orderBySentAtDesc, List.mem_filter]
    exact ⟨mem_threadMessages.mpr ⟨hx, hth⟩, hvis⟩
  unfold latestVisibleInThread
  cases hl : orderBySentAtDesc ((threadMessages db sid).filter (visibleFilter u)) with
  | nil => rw [hl] at hmem; simp at hmem
  | cons a t => simp

theorem mem_validStartersFor {db : List Message} {u : Nat} {pks : List Nat}
    {V : Message} :
    V ∈ validStartersFor db u pks ↔
      V ∈ db ∧ V.id ∈ pks ∧ visibleFilter u V = true := by
  simp [validStartersFor, mem_orderBySentAt, List.mem_filter, Bool.and_eq_true,
    List.elem_iff, and_assoc]

theorem headOf_eq_id_iff {m : Message} :
    headOf m = m.id ↔
      m.conversation_starter = none ∨ m.conversation_starter = some m.id := by
  cases h : m.conversation_starter <;> simp [headOf, h]

theorem wellFormed_starter {db : List Message} (hWF : WellFormed db)
    {m : Message} (hm : m ∈ db) {s : Nat} (hs : m.conversation_starter = some s) :
    ∃ h ∈ db, h.id = s ∧ h.conversation_starter = some s := by
  rcases hWF.2 m hm with h0 | ⟨h, hh, he, hself⟩
  · rw [hs] at h0; cases h0
  · rw [hs] at he
    obtain rfl : s = h.id := by injection he
    exact ⟨h, hh, rfl, hself⟩

theorem inboxStarterPks_sound {db : List Message} {u : Nat} {s : Nat}
    (h : s ∈ inboxStarterPks db u) :
    ∃ m ∈ db, visibleFilter u m = true ∧
      (m.conversation_starter = some s ∨
        (m.conversation_starter = none ∧ m.id = s)) := by
  rw [inboxStarterPks, List.mem_dedup, List.mem_filterMap] at h
  obtain ⟨o, ho, hid⟩ := h
  obtain rfl : o = some s := hid
  rw [List.mem_append] at ho
  rcases ho with ho | ho
  · rw [List.mem_map] at ho
    obtain ⟨m, hm, hms⟩ := ho
    rw [List.mem_filter] at hm
    exact ⟨m, hm.1, hm.2, Or.inl hms⟩
  · rw [List.mem_map] at ho
    obtain ⟨m, hm, hms⟩ := ho
    rw [List.mem_filter, Bool.and_eq_true, Option.isNone_iff_eq_none] at hm
    obtain rfl : m.id = s := by injection hms
    exact ⟨m, hm.1, hm.2.1, Or.inr ⟨hm.2.2, rfl⟩⟩

theorem inboxStarterPks_self {db : List Message} {u : Nat} {h : Message}
    (hh : h ∈ db) (hvis : visibleFilter u h = true) (hhead : headOf h = h.id) :
    h.id ∈ inboxStarterPks db u := by
  rw [inboxStarterPks, List.mem_dedup, List.mem_filterMap]
  refine ⟨some h.id, ?_, rfl⟩
  rw [List.mem_append]
  rcases headOf_eq_id_iff.mp hhead with hnone | hself
  · right
    rw [List.mem_map]
    refine ⟨h, ?_, rfl⟩
    rw [List.mem_filter, Bool.and_eq_true, Option.isNone_iff_eq_none]
    exact ⟨hh, hvis, hnone⟩
  · left
    rw [List.mem_map]
    exact ⟨h, List.mem_filter.mpr ⟨hh, hvis⟩, hself⟩

theorem validStarter_isHead {db : List Message} {u : Nat} (hWF : WellFormed db)
    {V : Message} (hV : V ∈ validStartersFor db u (inboxStarterPks db u)) :
    headOf V = V.id := by
  obtain ⟨hVdb, hVpk, _⟩ := mem_validStartersFor.mp hV
  obtain ⟨m, hm, _, hcase⟩ := inboxStarterPks_sound hVpk
  rcases hcase with hsome | ⟨hnone, hid⟩
  · obtain ⟨h, hhdb, hhid, hhself⟩ := wellFormed_starter hWF hm hsome
    obtain rfl : V = h := eq_of_id_eq hWF.1 hVdb hhdb (by rw [hhid])
    exact headOf_eq_id_iff.mpr (Or.inr (hhid ▸ hhself))
  · obtain rfl : m = V := eq_of_id_eq hWF.1 hm hVdb hid
    exact headOf_eq_id_iff.mpr (Or.inl hnone)

theorem inbox_row_exists {db : List Message} {u : Nat} {r : Message}
    (hr : r ∈ inbox_get_queryset db u) :
    ∃ V ∈ validStartersFor db u (inboxStarterPks db u),
      latestVisibleInThread db u V.id = some r := by
  rw [inbox_get_queryset, mem_orderBySentAtDesc, List.mem_filterMap] at hr
  exact hr

theorem sent_row_exists {db : List Message} {u : Nat} {r : Message}
    (hr : r ∈ sent_get_queryset db u) :
    ∃ V ∈ validStartersFor db u (sentStarterPks db u),
      latestVisibleInThread db u V.id = some r := by
  rw [sent_get_queryset, mem_orderBySentAtDesc, List.mem_filterMap] at hr
  exact hr

theorem pick_headOf {db : List Message} {u : Nat}
    (hN : (db.map Message.id).Nodup) {V r : Message} (hV : V ∈ db)
    (hhead : headOf V = V.id) (hr : latestVisibleInThread db u V.id = some r) :
    headOf r = V.id := by
  obtain ⟨hrdb, _, hth⟩ := latestVisibleInThread_mem hr
  rcases hth with hsome | hid
  · simp [headOf, hsome]
  · obtain rfl : r = V := eq_of_id_eq hN hrdb hV hid
    exact hhead

theorem mem_conversation_messages {db : List Message} {u : Nat} {head m : Message} :
    m ∈ conversation_messages db u head ↔
      m ∈ db ∧ (m.conversation_starter = some head.id ∨ m.id = head.id) ∧
        visibleFilter u m = true := by
  rw [conversation_messages, mem_orderBySentAt, List.mem_filter, mem_threadMessages,
    and_assoc]

/-! ### Claim theorems -/

/-- C1: a message is visible to a user exactly when the user is its
sender with the sender-side soft-delete flag unset, or its receiver with
the receiver-side flag unset; and every messaging query presenting
messages to the user filters by exactly this predicate (the detail
queryset keeps precisely the visible rows, and every conversation,
inbox and sent row is visible). -/
theorem visibility_filter_governs_all_queries (u : Nat) :
    (∀ m : Message, visibleSpec u m ↔ visibleFilter u m = true) ∧
    (∀ (db : List Message) (m : Message),
      m ∈ messageDetail_get_queryset db u ↔ m ∈ db ∧ visibleFilter u m = true) ∧
    (∀ (db : List Message) (head m : Message),
      m ∈ conversation_messages db u head → visibleFilter u m = true) ∧
    (∀ (db : List Message) (r : Message),
      r ∈ inbox_get_queryset db u → visibleFilter u r = true) ∧
    (∀ (db : List Message) (r : Message),
      r ∈ sent_get_queryset db u → visibleFilter u r = true) := by
  refine ⟨fun m => (visibleFilter_eq_true_iff u m).symm,
    fun db m => mem_messageDetail_get_queryset,
    fun db head m hm => (mem_conversation_messages.mp hm).2.2, ?_, ?_⟩
  · intro db r hr
    obtain ⟨V, _, hpick⟩ := inbox_row_exists hr
    exact (latestVisibleInThread_mem hpick).2.1
  · intro db r hr
    obtain ⟨V, _, hpick⟩ := sent_row_exists hr
    exact (latestVisibleInThread_mem hpick).2.1

theorem visibility_filter_governs_all_queries_witness :
    visibleFilter 2 msgReply = true ∧ visibleFilter 2 msgReply = true ∧
      visibleFilter 2 msgReply = true :=
  ⟨(visibility_filter_governs_all_queries 2).2.2.1 dbGood msgHead msgReply (by decide),
   (visibility_filter_governs_all_queries 2).2.2.2.1 dbGood msgReply (by decide),
   (visibility_filter_governs_all_queries 2).2.2.2.2 dbGood msgReply (by decide)⟩

/-- C5: for a resolvable thread head, the conversation view lists exactly
the messages whose `conversation_starter` equals the head plus the head
itself, restricted to messages visible to the user, ordered by `sent_at`
ascending. -/
theorem conversation_view_lists_thread (db : List Message) (u pk : Nat)
    (H : Message) (_hres : messageDetail_get_object db u pk = some H) :
    (∀ m : Message, m ∈ conversation_messages db u H ↔
      m ∈ db ∧ (m.conversation_starter = some H.id ∨ m.id = H.id) ∧
        visibleFilter u m = true) ∧
    List.Sorted (fun a b => a.sent_at ≤ b.sent_at)
      (conversation_messages db u H) :=
  ⟨fun _ => mem_conversation_messages, sorted_orderBySentAt _⟩

theorem conversation_view_lists_thread_witness :
    (msgReply ∈ conversation_messages dbGood 2 msgHead ↔
      msgReply ∈ dbGood ∧
        (msgReply.conversation_starter = some msgHead.id ∨
          msgReply.id = msgHead.id) ∧
        visibleFilter 2 msgReply = true) ∧
    List.Sorted (fun a b => a.sent_at ≤ b.sent_at)
      (conversation_messages dbGood 2 msgHead) := by
  have h := conversation_view_lists_thread dbGood 2 2 msgHead (by decide)
  exact ⟨h.1 msgReply, h.2⟩

/-- C4: sending with a `parent_id` fails NotFound when no such message
exists, and otherwise the new message's `conversation_starter` is the
parent's `conversation_starter` when non-null, else the parent itself —
so the reply's canonical head equals the parent's; sending without a
parent ends, after the two-step write, with the new message being its
own `conversation_starter`. -/
theorem composer_threading (db : List Message) (s r : Nat)
    (subj bodyTxt : String) (newId now : Nat) :
    (∀ p : Nat, (∀ m ∈ db, m.id ≠ p) →
      sendMessage db s r subj bodyTxt (some p) newId now =
        Except.error ViewError.notFound) ∧
    (∀ (p : Nat) (parent : Message),
      db.find? (fun m => m.id == p) = some parent →
      ∃ msg db2,
        sendMessage db s r subj bodyTxt (some p) newId now =
          Except.ok (msg, db2) ∧
        msg.conversation_starter =
          some (parent.conversation_starter.getD parent.id) ∧
        headOf msg = headOf parent ∧ msg.parent_message = some p ∧
        msg ∈ db2) ∧
    (∃ msg db2,
      sendMessage db s r subj bodyTxt none newId now = Except.ok (msg, db2) ∧
      msg.conversation_starter = some newId ∧ msg.id = newId ∧ msg ∈ db2) := by
  refine ⟨?_, ?_, ?_⟩
  · intro p hp
    have hnone : db.find? (fun m => m.id == p) = none := by
      rw [List.find?_eq_none]
      intro m hm
      simp [beq_iff_eq]
      exact hp m hm
    simp [sendMessage, hnone]
  · intro p parent hfind
    simp only [sendMessage, hfind]
    refine ⟨_, _, rfl, ?_, ?_, ?_, ?_⟩
    · simp [sendSave]
    · simp [sendSave, headOf]
    · simp [sendSave]
    · simp [sendSave, List.mem_append]
  · simp only [sendMessage]
    refine ⟨_, _, rfl, ?_, ?_, ?_⟩
    · simp [sendSave]
    · simp [sendSave]
    · simp only [sendSave, Option.isNone_none, if_true]
      refine List.mem_map.mpr ⟨_, List.mem_append_right db (List.mem_singleton.mpr rfl), ?_⟩
      simp

theorem composer_threading_witness :
    sendMessage dbGood 1 2 "s" "b" (some 99) 3 5 =
        Except.error ViewError.notFound ∧
    (∃ msg db2,
      sendMessage dbGood 1 2 "s" "b" (some 2) 3 5 = Except.ok (msg, db2) ∧
      msg.conversation_starter =
        some (msgReply.conversation_starter.getD msgReply.id) ∧
      headOf msg = headOf msgReply ∧ msg.parent_message = some 2 ∧
      msg ∈ db2) ∧
    (∃ msg db2,
      sendMessage dbGood 1 2 "s" "b" none 3 5 = Except.ok (msg, db2) ∧
      msg.conversation_starter = some 3 ∧ msg.id = 3 ∧ msg ∈ db2) :=
  ⟨(composer_threading dbGood 1 2 "s" "b" 3 5).1 99 (by decide),
   (composer_threading dbGood 1 2 "s" "b" 3 5).2.1 2 msgReply (by decide),
   (composer_threading dbGood 1 2 "s" "b" 3 5).2.2⟩

/-- Every field of a message other than the two soft-delete flags is
unchanged by the deletion loop body, and each flag is set exactly when
the user holds the corresponding role. -/
theorem applyDelete_spec (u : Nat) (m : Message) :
    (applyDelete u m).id = m.id ∧ (applyDelete u m).sender = m.sender ∧
    (applyDelete u m).receiver = m.receiver ∧
    (applyDelete u m).sent_at = m.sent_at ∧
    (applyDelete u m).is_read = m.is_read ∧
    (applyDelete u m).subject = m.subject ∧
    (applyDelete u m).body = m.body ∧
    (applyDelete u m).parent_message = m.parent_message ∧
    (applyDelete u m).conversation_starter = m.conversation_starter ∧
    (applyDelete u m).is_deleted_by_sender =
      (m.is_deleted_by_sender || (m.sender == u)) ∧
    (applyDelete u m).is_deleted_by_receiver =
      (m.is_deleted_by_receiver || (m.receiver == u)) := by
  unfold applyDelete
  by_cases hs : m.sender == u <;> by_cases hr : m.receiver == u <;>
    simp_all

/-- Visibility for any user other than the deleting one is untouched by
the deletion loop body. -/
theorem applyDelete_visible (u v : Nat) (m : Message) (hvu : v ≠ u) :
    visibleFilter v (applyDelete u m) = visibleFilter v m := by
  obtain ⟨-, hsend, hrecv, -, -, -, -, -, -, hds, hdr⟩ := applyDelete_spec u m
  rw [visibleFilter, visibleFilter, hsend, hrecv, hds, hdr]
  by_cases hs : m.sender = u <;> by_cases hr : m.receiver = u
  · have h1 : (m.sender == v) = false := by
      rw [hs, beq_eq_false_iff_ne]; exact fun h => hvu h.symm
    have h2 : (m.receiver == v) = false := by
      rw [hr, beq_eq_false_iff_ne]; exact fun h => hvu h.symm
    simp [h1, h2]
  · have h1 : (m.sender == v) = false := by
      rw [hs, beq_eq_false_iff_ne]; exact fun h => hvu h.symm
    have h2 : (m.receiver == u) = false := beq_eq_false_iff_ne.mpr hr
    simp [h1, h2]
  · have h1 : (m.sender == u) = false := beq_eq_false_iff_ne.mpr hs
    have h2 : (m.receiver == v) = false := by
      rw [hr, beq_eq_false_iff_ne]; exact fun h => hvu h.symm
    simp [h1, h2]
  · have h1 : (m.sender == u) = false := beq_eq_false_iff_ne.mpr hs
    have h2 : (m.receiver == u) = false := beq_eq_false_iff_ne.mpr hr
    simp [h1, h2]

/-- C7: a successful conversation soft-delete destroys no row (length
and pks preserved) and leaves visibility unchanged for every user other
than the deleting participant, on every message. -/
theorem soft_delete_preserves_others (db : List Message) (u pk : Nat)
    (db2 : List Message)
    (hdel : delete_conversation_view db u pk = (DeleteResult.deleted, db2)) :
    db2.length = db.length ∧ db2.map Message.id = db.map Message.id ∧
    ∀ v : Nat, v ≠ u → db2.map (visibleFilter v) = db.map (visibleFilter v) := by
  unfold delete_conversation_view at hdel
  split at hdel
  · simp at hdel
  · split at hdel
    · simp at hdel
    · rw [Prod.mk.injEq] at hdel
      obtain ⟨-, hdb2⟩ := hdel
      subst hdb2
      refine ⟨by simp, ?_, ?_⟩
      · rw [List.map_map]
        apply List.map_congr_left
        intro m _
        simp only [Function.comp_apply]
        split
        · exact (applyDelete_spec u m).1
        · rfl
      · intro v hv
        rw [List.map_map]
        apply List.map_congr_left
        intro m _
        simp only [Function.comp_apply]
        split
        · exact applyDelete_visible u v m hv
        · rfl

theorem soft_delete_preserves_others_witness :
    ([msgHeadDel, { msgReply with is_deleted_by_sender := true }] :
        List Message).length = dbGood.length ∧
    ([msgHeadDel, { msgReply with is_deleted_by_sender := true }] :
        List Message).map Message.id = dbGood.map Message.id ∧
    ∀ v : Nat, v ≠ 2 →
      ([msgHeadDel, { msgReply with is_deleted_by_sender := true }] :
          List Message).map (visibleFilter v) = dbGood.map (visibleFilter v) :=
  soft_delete_preserves_others dbGood 2 1 _ (by decide)

/-- C8: a user who is neither sender nor receiver of the thread head gets
the Forbidden outcome and the store is returned unchanged — no soft
delete flag of any message is modified. -/
theorem delete_forbidden_for_non_participant (db : List Message) (u pk : Nat)
    (h : Message) (hfind : db.find? (fun m => m.id == pk) = some h)
    (hs : h.sender ≠ u) (hr : h.receiver ≠ u) :
    delete_conversation_view db u pk = (DeleteResult.forbidden, db) := by
  have h1 : (h.sender == u) = false := beq_eq_false_iff_ne.mpr hs
  have h2 : (h.receiver == u) = false := beq_eq_false_iff_ne.mpr hr
  simp [delete_conversation_view, hfind, h1, h2]

theorem delete_forbidden_for_non_participant_witness :
    delete_conversation_view dbGood 3 1 = (DeleteResult.forbidden, dbGood) :=
  delete_forbidden_for_non_participant dbGood 3 1 msgHead (by decide)
    (by decide) (by decide)

/-- C9: a reply visible to the user whose thread head is not visible to
the user (for instance soft-deleted by the user) fails to resolve: the
canonicalization re-fetch goes through the visibility-filtered queryset
and returns NotFound. -/
theorem reply_with_invisible_head_not_found (db : List Message) (u : Nat)
    (R : Message) (s : Nat) (hN : (db.map Message.id).Nodup) (hR : R ∈ db)
    (hvis : visibleFilter u R = true) (hcs : R.conversation_starter = some s)
    (hne : s ≠ R.id) (hhead : ∀ m ∈ db, m.id = s → visibleFilter u m = false) :
    messageDetail_get_object db u R.id = none := by
  have hRq : R ∈ messageDetail_get_queryset db u :=
    mem_messageDetail_get_queryset.mpr ⟨hR, hvis⟩
  have hNq : ((messageDetail_get_queryset db u).map Message.id).Nodup :=
    nodup_ids_filter hN (visibleFilter u)
  have hfind : (messageDetail_get_queryset db u).find? (fun m => m.id == R.id) =
      some R := find?_id_eq_some hNq hRq
  have hnone : (messageDetail_get_queryset db u).find? (fun m => m.id == s) =
      none := by
    rw [List.find?_eq_none]
    intro x hx
    obtain ⟨hxdb, hxvis⟩ := mem_messageDetail_get_queryset.mp hx
    simp only [beq_iff_eq]
    intro hxs
    rw [hhead x hxdb hxs] at hxvis
    cases hxvis
  simp [messageDetail_get_object, hfind, hcs, hne, hnone]

theorem reply_with_invisible_head_not_found_witness :
    messageDetail_get_object dbPartial 2 msgReply.id = none :=
  reply_with_invisible_head_not_found dbPartial 2 msgReply 1 (by decide)
    (by decide) (by decide) (by decide) (by decide) (by decide)

/-- C10: calling the conversation-delete view with the pk of a message
that is nobody's `conversation_starter` soft-deletes just that message:
the store update touches only the row with that pk, and on that row only
the flag(s) for the roles the user holds, leaving every other field and
every other message unchanged. -/
theorem delete_on_reply_flags_only_reply (db : List Message) (u : Nat)
    (R : Message) (hN : (db.map Message.id).Nodup) (hR : R ∈ db)
    (hnohead : ∀ m ∈ db, m.conversation_starter ≠ some R.id)
    (hpart : R.sender = u ∨ R.receiver = u) :
    delete_conversation_view db u R.id =
      (DeleteResult.deleted,
        db.map (fun m => if m.id = R.id then applyDelete u m else m)) ∧
    (applyDelete u R).is_deleted_by_sender =
      (R.is_deleted_by_sender || (R.sender == u)) ∧
    (applyDelete u R).is_deleted_by_receiver =
      (R.is_deleted_by_receiver || (R.receiver == u)) ∧
    (applyDelete u R).sender = R.sender ∧
    (applyDelete u R).receiver = R.receiver ∧
    (applyDelete u R).conversation_starter = R.conversation_starter := by
  obtain ⟨-, hsnd, hrcv, -, -, -, -, -, hcs, hds, hdr⟩ := applyDelete_spec u R
  refine ⟨?_, hds, hdr, hsnd, hrcv, hcs⟩
  have hfind : db.find? (fun m => m.id == R.id) = some R := find?_id_eq_some hN hR
  have hcond : (!(R.sender == u || R.receiver == u)) = false := by
    rcases hpart with hp | hp <;> simp [hp]
  unfold delete_conversation_view
  rw [hfind]
  simp only [hcond, Bool.false_eq_true, if_false, Prod.mk.injEq, true_and]
  apply List.map_congr_left
  intro m hm
  have hno : (m.conversation_starter == some R.id) = false :=
    beq_eq_false_iff_ne.mpr (hnohead m hm)
  by_cases hid : m.id = R.id <;> simp [hno, hid]

theorem delete_on_reply_flags_only_reply_witness :
    delete_conversation_view dbGood 1 msgReply.id =
      (DeleteResult.deleted,
        dbGood.map (fun m => if m.id = msgReply.id then applyDelete 1 m else m)) ∧
    (applyDelete 1 msgReply).is_deleted_by_sender =
      (msgReply.is_deleted_by_sender || (msgReply.sender == 1)) ∧
    (applyDelete 1 msgReply).is_deleted_by_receiver =
      (msgReply.is_deleted_by_receiver || (msgReply.receiver == 1)) ∧
    (applyDelete 1 msgReply).sender = msgReply.sender ∧
    (applyDelete 1 msgReply).receiver = msgReply.receiver ∧
    (applyDelete 1 msgReply).conversation_starter =
      msgReply.conversation_starter :=
  delete_on_reply_flags_only_reply dbGood 1 msgReply (by decide) (by decide)
    (by decide) (Or.inr rfl)

/-- C3: thread-head canonicalization is idempotent — when resolving some
pk through the detail view yields head `H`, resolving `H.id` yields `H`
again; and whenever the first fetch returns an object whose
`conversation_starter` differs from itself, the resolution is exactly
the re-fetch of the starter's pk through the visibility queryset. -/
theorem canonicalization_idempotent (db : List Message) (u pk : Nat)
    (H : Message) (hWF : WellFormed db)
    (hres : messageDetail_get_object db u pk = some H) :
    messageDetail_get_object db u H.id = some H ∧
    (∀ (obj : Message) (s : Nat),
      (messageDetail_get_queryset db u).find? (fun m => m.id == pk) = some obj →
      obj.conversation_starter = some s → s ≠ obj.id →
      messageDetail_get_object db u pk =
        (messageDetail_get_queryset db u).find? (fun m => m.id == s)) := by
  have hNq : ((messageDetail_get_queryset db u).map Message.id).Nodup :=
    nodup_ids_filter hWF.1 (visibleFilter u)
  constructor
  · unfold messageDetail_get_object at hres
    split at hres
    · simp at hres
    · rename_i obj heq
      split at hres
      · rename_i s heq2
        split at hres
        · rename_i hne
          have hHq : H ∈ messageDetail_get_queryset db u :=
            List.mem_of_find?_eq_some hres
          have hHs : H.id = s := by simpa using List.find?_some hres
          have hobjdb : obj ∈ db :=
            (mem_messageDetail_get_queryset.mp (List.mem_of_find?_eq_some heq)).1
          obtain ⟨h, hdb, hid, hself⟩ := wellFormed_starter hWF hobjdb heq2
          have hHdb : H ∈ db := (mem_messageDetail_get_queryset.mp hHq).1
          have hHh : H = h := eq_of_id_eq hWF.1 hHdb hdb (by rw [hHs, hid])
          subst hHh
          have hcsH : H.conversation_starter = some H.id := by rw [hself, hid]
          have hfindH :
              (messageDetail_get_queryset db u).find? (fun m => m.id == H.id) =
                some H := find?_id_eq_some hNq hHq
          simp [messageDetail_get_object, hfindH, hcsH]
        · rename_i hne
          have hoH : obj = H := by simpa using hres
          subst hoH
          have hs : s = obj.id := by simpa using hne
          have hHq : obj ∈ messageDetail_get_queryset db u :=
            List.mem_of_find?_eq_some heq
          have hfindH :
              (messageDetail_get_queryset db u).find? (fun m => m.id == obj.id) =
                some obj := find?_id_eq_some hNq hHq
          have hcsH : obj.conversation_starter = some obj.id := by rw [heq2, hs]
          simp [messageDetail_get_object, hfindH, hcsH]
      · rename_i heq2
        have hoH : obj = H := by simpa using hres
        subst hoH
        have hHq : obj ∈ messageDetail_get_queryset db u :=
          List.mem_of_find?_eq_some heq
        have hfindH :
            (messageDetail_get_queryset db u).find? (fun m => m.id == obj.id) =
              some obj := find?_id_eq_some hNq hHq
        simp [messageDetail_get_object, hfindH, heq2]
  · intro obj s hfind hcs hne
    simp [messageDetail_get_object, hfind, hcs, hne]

theorem canonicalization_idempotent_witness :
    messageDetail_get_object dbGood 2 msgHead.id = some msgHead ∧
    (∀ (obj : Message) (s : Nat),
      (messageDetail_get_queryset dbGood 2).find? (fun m => m.id == 2) =
        some obj →
      obj.conversation_starter = some s → s ≠ obj.id →
      messageDetail_get_object dbGood 2 2 =
        (messageDetail_get_queryset dbGood 2).find? (fun m => m.id == s)) :=
  canonicalization_idempotent dbGood 2 2 msgHead ⟨by decide, by decide⟩
    (by decide)

/-! ### Inbox aggregation facts -/

theorem nodup_ids_validStartersFor {db : List Message}
    (hN : (db.map Message.id).Nodup) (u : Nat) (pks : List Nat) :
    ((validStartersFor db u pks).map Message.id).Nodup := by
  have hp : List.Perm (validStartersFor db u pks)
      (db.filter (fun m => pks.contains m.id && visibleFilter u m)) :=
    orderBySentAt_perm _
  exact ((hp.map Message.id).nodup_iff).mpr (nodup_ids_filter hN _)

theorem filterMap_map_headOf_nodup (pick : Message → Option Message)
    (K : List Message) (hids : (K.map Message.id).Nodup)
    (hhead : ∀ V ∈ K, ∀ r, pick V = some r → headOf r = V.id) :
    ((K.filterMap pick).map headOf).Nodup := by
  induction K with
  | nil => simp
  | cons V K ih =>
    simp only [List.map_cons, List.nodup_cons] at hids
    have ih2 := ih hids.2 (fun V' hV' r hr => hhead V' (List.mem_cons_of_mem _ hV') r hr)
    cases hp : pick V with
    | none => simpa [List.filterMap_cons, hp] using ih2
    | some r =>
      simp only [List.filterMap_cons, hp, List.map_cons, List.nodup_cons]
      refine ⟨?_, ih2⟩
      intro hmem
      rw [List.mem_map] at hmem
      obtain ⟨r', hr', heq⟩ := hmem
      rw [List.mem_filterMap] at hr'
      obtain ⟨V', hV', hpick'⟩ := hr'
      have h1 : headOf r' = V'.id :=
        hhead V' (List.mem_cons_of_mem _ hV') r' hpick'
      have h2 : headOf r = V.id := hhead V (List.mem_cons_self _ _) r hp
      apply hids.1
      rw [List.mem_map]
      exact ⟨V', hV', by rw [← h1, heq, h2]⟩

theorem length_filter_eq_one_of_nodup_map {l : List Message}
    (hN : (l.map headOf).Nodup) {r : Message} (hr : r ∈ l) {tid : Nat}
    (htid : headOf r = tid) :
    (l.filter (fun x => headOf x == tid)).length = 1 := by
  induction l with
  | nil => simp at hr
  | cons a t ih =>
    simp only [List.map_cons, List.nodup_cons] at hN
    rcases List.mem_cons.mp hr with rfl | hrt
    · rw [List.filter_cons, if_pos (by simp [htid])]
      have hnil : t.filter (fun x => headOf x == tid) = [] := by
        rw [List.filter_eq_nil_iff]
        intro x hx
        simp only [beq_iff_eq]
        intro hxe
        exact hN.1 (htid ▸ hxe ▸ List.mem_map_of_mem headOf hx)
      simp [hnil]
    · have hne : (headOf a == tid) = false := by
        rw [beq_eq_false_iff_ne]
        intro he
        exact hN.1 (by rw [he, ← htid]; exact List.mem_map_of_mem headOf hrt)
      rw [List.filter_cons, if_neg (by simp [hne])]
      exact ih hN.2 hrt

theorem inbox_row_for_head {db : List Message} {u : Nat} (hWF : WellFormed db)
    {h : Message} (hh : h ∈ db) (hhead : headOf h = h.id)
    (hvis : visibleFilter u h = true) :
    ∃ r ∈ inbox_get_queryset db u, headOf r = h.id := by
  have hpk : h.id ∈ inboxStarterPks db u := inboxStarterPks_self hh hvis hhead
  have hK : h ∈ validStartersFor db u (inboxStarterPks db u) :=
    mem_validStartersFor.mpr ⟨hh, hpk, hvis⟩
  have hsome := latestVisibleInThread_isSome hh hvis (Or.inr rfl)
  obtain ⟨r, hr⟩ := Option.isSome_iff_exists.mp hsome
  refine ⟨r, ?_, pick_headOf hWF.1 hh hhead hr⟩
  rw [inbox_get_queryset, mem_orderBySentAtDesc, List.mem_filterMap]
  exact ⟨h, hK, hr⟩

theorem inbox_heads_nodup {db : List Message} {u : Nat} (hWF : WellFormed db) :
    ((inbox_get_queryset db u).map headOf).Nodup := by
  have hids : ((validStartersFor db u (inboxStarterPks db u)).map Message.id).Nodup :=
    nodup_ids_validStartersFor hWF.1 u _
  have hhead : ∀ V ∈ validStartersFor db u (inboxStarterPks db u),
      ∀ r, latestVisibleInThread db u V.id = some r → headOf r = V.id := by
    intro V hV r hr
    have hm := mem_validStartersFor.mp hV
    exact pick_headOf hWF.1 hm.1 (validStarter_isHead hWF hV) hr
  have hL := filterMap_map_headOf_nodup _ _ hids hhead
  have hp : List.Perm (inbox_get_queryset db u)
      ((validStartersFor db u (inboxStarterPks db u)).filterMap
        (fun starter => latestVisibleInThread db u starter.id)) :=
    orderBySentAtDesc_perm _
  exact ((hp.map headOf).nodup_iff).mpr hL

/-- C2 (amended): the inbox shows exactly one summary row for each
thread whose head message is still visible to the user; every row is
visible and belongs to a thread with a visible head (so a thread all of
whose messages are soft-deleted by the user is absent); no two rows
share a thread head; and rows are sorted by `sent_at` descending. -/
theorem inbox_one_row_per_visible_head (db : List Message) (u : Nat)
    (hWF : WellFormed db) :
    (∀ h ∈ db, headOf h = h.id → visibleFilter u h = true →
      ((inbox_get_queryset db u).filter (fun r => headOf r == h.id)).length = 1) ∧
    (∀ r ∈ inbox_get_queryset db u, visibleFilter u r = true ∧
      ∃ h ∈ db, headOf h = h.id ∧ visibleFilter u h = true ∧ headOf r = h.id) ∧
    ((inbox_get_queryset db u).map headOf).Nodup ∧
    List.Sorted (fun a b => b.sent_at ≤ a.sent_at) (inbox_get_queryset db u) := by
  refine ⟨?_, ?_, inbox_heads_nodup hWF, ?_⟩
  · intro h hh hhead hvis
    obtain ⟨r, hrmem, hrhead⟩ := inbox_row_for_head hWF hh hhead hvis
    exact length_filter_eq_one_of_nodup_map (inbox_heads_nodup hWF) hrmem hrhead
  · intro r hr
    obtain ⟨V, hV, hpick⟩ := inbox_row_exists hr
    have hm := mem_validStartersFor.mp hV
    have hhV := validStarter_isHead hWF hV
    exact ⟨(latestVisibleInThread_mem hpick).2.1,
      V, hm.1, hhV, hm.2.2, pick_headOf hWF.1 hm.1 hhV hpick⟩
  · rw [inbox_get_queryset]
    exact sorted_orderBySentAtDesc _

theorem inbox_one_row_per_visible_head_witness :
    ((inbox_get_queryset dbGood 2).filter
        (fun r => headOf r == msgHead.id)).length = 1 ∧
    List.Sorted (fun a b => b.sent_at ≤ a.sent_at) (inbox_get_queryset dbGood 2) := by
  have h := inbox_one_row_per_visible_head dbGood 2 ⟨by decide, by decide⟩
  exact ⟨h.1 msgHead (by decide) (by decide) (by decide), h.2.2.2⟩

/-- C2 counterexample: in the store `dbPartial` user 2 still has a
visible message (`msgReply`) in the thread headed at pk 1, yet the inbox
aggregation for user 2 returns no row at all, because the head itself is
soft-deleted by user 2 and the code re-filters candidate heads by their
own visibility.  The claim as stated (one row per thread with at least
one visible message) therefore fails. -/
theorem inbox_drops_thread_with_deleted_head :
    WellFormed dbPartial ∧ msgReply ∈ dbPartial ∧
    visibleFilter 2 msgReply = true ∧ headOf msgReply = msgHeadDel.id ∧
    msgHeadDel ∈ dbPartial ∧ headOf msgHeadDel = msgHeadDel.id ∧
    inbox_get_queryset dbPartial 2 = [] :=
  ⟨⟨by decide, by decide⟩, by decide, by decide, by decide, by decide,
    by decide, by decide⟩

/-! ### Stability of the views under is_read-only store updates -/

theorem orderedInsert_map (rel : Message → Message → Prop) [DecidableRel rel]
    (g : Message → Message) (a : Message) (L : List Message)
    (h : ∀ b ∈ L, (rel (g a) (g b) ↔ rel a b)) :
    (L.map g).orderedInsert rel (g a) = (L.orderedInsert rel a).map g := by
  induction L with
  | nil => rfl
  | cons b t ih =>
    simp only [List.map_cons, List.orderedInsert]
    by_cases hr : rel a b
    · rw [if_pos ((h b (List.mem_cons_self _ _)).mpr hr), if_pos hr]
      simp
    · rw [if_neg (fun hc => hr ((h b (List.mem_cons_self _ _)).mp hc)), if_neg hr]
      rw [List.map_cons, ih (fun b' hb' => h b' (List.mem_cons_of_mem _ hb'))]

theorem insertionSort_map (rel : Message → Message → Prop) [DecidableRel rel]
    (g : Message → Message) (l : List Message)
    (h : ∀ a ∈ l, ∀ b ∈ l, (rel (g a) (g b) ↔ rel a b)) :
    (l.map g).insertionSort rel = (l.insertionSort rel).map g := by
  induction l with
  | nil => rfl
  | cons a t ih =>
    simp only [List.map_cons, List.insertionSort]
    rw [ih (fun x hx y hy =>
      h x (List.mem_cons_of_mem _ hx) y (List.mem_cons_of_mem _ hy))]
    exact orderedInsert_map rel g a _ (fun b hb =>
      h a (List.mem_cons_self _ _) b
        (List.mem_cons_of_mem _ ((List.mem_insertionSort rel).mp hb)))

theorem orderBySentAt_map (g : Message → Message) (l : List Message)
    (hs : ∀ m ∈ l, (g m).sent_at = m.sent_at) :
    orderBySentAt (l.map g) = (orderBySentAt l).map g :=
  insertionSort_map _ g l (fun a ha b hb => by rw [hs a ha, hs b hb])

/-! ### Mark-as-read facts -/

theorem markF_eq_self_or_read {u : Nat} {msgs db : List Message}
    (hN : (db.map Message.id).Nodup) (hsub : ∀ c ∈ msgs, c ∈ db)
    {m : Message} (hm : m ∈ db) :
    markF u msgs m = m ∨ markF u msgs m = { m with is_read := true } := by
  unfold markF
  cases hfind : msgs.find? (fun c => c.id == m.id && c.receiver == u && !c.is_read) with
  | none => exact Or.inl rfl
  | some c =>
    right
    have hcm : c ∈ msgs := List.mem_of_find?_eq_some hfind
    have hp := List.find?_some hfind
    simp only [Bool.and_eq_true, beq_iff_eq] at hp
    have hceq : c = m := eq_of_id_eq hN (hsub c hcm) hm hp.1.1
    rw [hceq]

theorem markF_fields (u : Nat) {msgs db : List Message}
    (hN : (db.map Message.id).Nodup) (hsub : ∀ c ∈ msgs, c ∈ db)
    {m : Message} (hm : m ∈ db) :
    (markF u msgs m).id = m.id ∧ (markF u msgs m).sender = m.sender ∧
    (markF u msgs m).receiver = m.receiver ∧
    (markF u msgs m).sent_at = m.sent_at ∧
    (markF u msgs m).conversation_starter = m.conversation_starter ∧
    visibleFilter u (markF u msgs m) = visibleFilter u m := by
  rcases markF_eq_self_or_read hN hsub hm with h | h <;> rw [h] <;>
    simp [visibleFilter]

theorem mark_read_marks {u : Nat} {msgs db : List Message}
    (hN : (db.map Message.id).Nodup) (hsub : ∀ c ∈ msgs, c ∈ db) :
    ∀ c ∈ msgs, c.receiver = u → ∀ m ∈ mark_read_update u msgs db,
      m.id = c.id → m.is_read = true := by
  intro c hc hcr m hm hid
  rw [mark_read_update, List.mem_map] at hm
  obtain ⟨m0, hm0, rfl⟩ := hm
  have hid0 : (markF u msgs m0).id = m0.id := (markF_fields u hN hsub hm0).1
  have hcm0 : c = m0 := eq_of_id_eq hN (hsub c hc) hm0 (by rw [← hid, hid0])
  subst hcm0
  unfold markF
  cases hfind : msgs.find? (fun x => x.id == c.id && x.receiver == u && !x.is_read) with
  | some x => simp
  | none =>
    simp only
    have hnone := List.find?_eq_none.mp hfind c hc
    simp only [Bool.and_eq_true, beq_iff_eq, Bool.not_eq_true',
      eq_self_iff_true, true_and] at hnone
    by_contra hread
    exact hnone ⟨hcr, by simpa using hread⟩

theorem get_object_mem {db : List Message} {u pk : Nat} {H : Message}
    (h : messageDetail_get_object db u pk = some H) :
    H ∈ db ∧ visibleFilter u H = true := by
  unfold messageDetail_get_object at h
  split at h
  · simp at h
  · rename_i obj heq
    split at h
    · split at h
      · exact mem_messageDetail_get_queryset.mp (List.mem_of_find?_eq_some h)
      · rw [Option.some_inj] at h
        subst h
        exact mem_messageDetail_get_queryset.mp (List.mem_of_find?_eq_some heq)
    · rw [Option.some_inj] at h
      subst h
      exact mem_messageDetail_get_queryset.mp (List.mem_of_find?_eq_some heq)

theorem queryset_map_markF {db msgs : List Message} {u : Nat}
    (hN : (db.map Message.id).Nodup) (hsub : ∀ c ∈ msgs, c ∈ db) :
    messageDetail_get_queryset (db.map (markF u msgs)) u =
      (messageDetail_get_queryset db u).map (markF u msgs) := by
  rw [messageDetail_get_queryset, messageDetail_get_queryset, filter_map_comm]
  congr 1
  apply List.filter_congr
  intro m hm
  exact (markF_fields u hN hsub hm).2.2.2.2.2

theorem find?_id_map_markF {l db msgs : List Message} {u pk0 : Nat}
    (hN : (db.map Message.id).Nodup) (hsub : ∀ c ∈ msgs, c ∈ db)
    (hl : ∀ m ∈ l, m ∈ db) :
    (l.map (markF u msgs)).find? (fun m => m.id == pk0) =
      (l.find? (fun m => m.id == pk0)).map (markF u msgs) :=
  find?_map_comm _ _ _ (fun a ha => by
    rw [(markF_fields u hN hsub (hl a ha)).1])

theorem get_object_map_markF {db msgs : List Message} {u pk : Nat}
    (hN : (db.map Message.id).Nodup) (hsub : ∀ c ∈ msgs, c ∈ db) :
    messageDetail_get_object (db.map (markF u msgs)) u pk =
      (messageDetail_get_object db u pk).map (markF u msgs) := by
  have hl : ∀ m ∈ messageDetail_get_queryset db u, m ∈ db :=
    fun m hm => (mem_messageDetail_get_queryset.mp hm).1
  unfold messageDetail_get_object
  rw [queryset_map_markF hN hsub, find?_id_map_markF hN hsub hl]
  cases hf : (messageDetail_get_queryset db u).find? (fun m => m.id == pk) with
  | none => simp
  | some obj =>
    have hobjdb : obj ∈ db := hl obj (List.mem_of_find?_eq_some hf)
    have hfl := markF_fields u hN hsub hobjdb
    simp only [Option.map_some']
    rw [hfl.2.2.2.2.1, hfl.1]
    cases hcs : obj.conversation_starter with
    | none => simp
    | some s =>
      dsimp only
      by_cases hs : s ≠ obj.id
      · rw [if_pos hs, if_pos hs]
        exact find?_id_map_markF hN hsub hl
      · rw [if_neg hs, if_neg hs]
        simp

theorem conversation_map_markF {db msgs : List Message} {u : Nat} {H : Message}
    (hN : (db.map Message.id).Nodup) (hsub : ∀ c ∈ msgs, c ∈ db)
    (hH : H ∈ db) :
    conversation_messages (db.map (markF u msgs)) u (markF u msgs H) =
      (conversation_messages db u H).map (markF u msgs) := by
  have hfl := markF_fields u hN hsub hH
  rw [conversation_messages, conversation_messages, hfl.1,
    threadMessages, threadMessages, filter_map_comm]
  have hpred : ∀ m ∈ db,
      ((markF u msgs m).conversation_starter == some H.id ||
        (markF u msgs m).id == H.id) =
      (m.conversation_starter == some H.id || m.id == H.id) := by
    intro m hm
    rw [(markF_fields u hN hsub hm).1, (markF_fields u hN hsub hm).2.2.2.2.1]
  rw [List.filter_congr hpred, filter_map_comm]
  have hvis : ∀ m ∈ db.filter
      (fun m => m.conversation_starter == some H.id || m.id == H.id),
      visibleFilter u (markF u msgs m) = visibleFilter u m := by
    intro m hm
    exact (markF_fields u hN hsub (List.mem_of_mem_filter hm)).2.2.2.2.2
  rw [List.filter_congr hvis]
  apply orderBySentAt_map
  intro m hm
  exact (markF_fields u hN hsub
    (List.mem_of_mem_filter (List.mem_of_mem_filter hm))).2.2.2.1

theorem mark_read_update_noop {u : Nat} {msgs2 db2 : List Message}
    (h : ∀ c ∈ msgs2, c.receiver = u → c.is_read = true) :
    mark_read_update u msgs2 db2 = db2 := by
  rw [mark_read_update]
  have hmf : ∀ m ∈ db2, markF u msgs2 m = m := by
    intro m _
    unfold markF
    have hnone : msgs2.find?
        (fun c => c.id == m.id && c.receiver == u && !c.is_read) = none := by
      rw [List.find?_eq_none]
      intro c hc
      intro hcc
      simp only [Bool.and_eq_true, beq_iff_eq, Bool.not_eq_true'] at hcc
      have hread := h c hc hcc.1.2
      rw [hcc.2] at hread
      cases hread
    rw [hnone]
  rw [List.map_congr_left hmf]
  exact List.map_id _

/-- C6: resolving a thread marks `is_read` on every returned message
whose receiver is the viewing user; and doing it again is harmless —
the second resolution succeeds, its conversation list is the (now read)
first list, and the store is left exactly as after the first
resolution. -/
theorem mark_read_and_idempotent (db : List Message) (u pk : Nat) (H : Message)
    (msgs db2 : List Message) (hN : (db.map Message.id).Nodup)
    (hview : message_detail_view db u pk = some (H, msgs, db2)) :
    (∀ c ∈ msgs, c.receiver = u → ∀ m ∈ db2, m.id = c.id → m.is_read = true) ∧
    message_detail_view db2 u pk =
      some (markF u msgs H, msgs.map (markF u msgs), db2) := by
  unfold message_detail_view at hview
  split at hview
  · simp at hview
  · rename_i H0 hobj
    rw [Option.some_inj, Prod.mk.injEq, Prod.mk.injEq] at hview
    obtain ⟨h1, h2, h3⟩ := hview
    subst h1
    subst h2
    subst h3
    have hsub : ∀ c ∈ conversation_messages db u H0, c ∈ db :=
      fun c hc => (mem_conversation_messages.mp hc).1
    have hHdb : H0 ∈ db := (get_object_mem hobj).1
    refine ⟨mark_read_marks hN hsub, ?_⟩
    have hread2 : ∀ c ∈ (conversation_messages db u H0).map
        (markF u (conversation_messages db u H0)),
        c.receiver = u → c.is_read = true := by
      intro c2 hc2 hrecv
      obtain ⟨c, hc, rfl⟩ := List.mem_map.mp hc2
      have hrc : c.receiver = u := by
        rw [← (markF_fields u hN hsub (hsub c hc)).2.2.1]
        exact hrecv
      exact mark_read_marks hN hsub c hc hrc _
        (List.mem_map_of_mem _ (hsub c hc))
        (markF_fields u hN hsub (hsub c hc)).1
    unfold message_detail_view
    rw [mark_read_update, get_object_map_markF hN hsub, hobj,
      Option.map_some']
    dsimp only
    rw [conversation_map_markF hN hsub hHdb]
    rw [show List.map (markF u (conversation_messages db u H0)) db =
      mark_read_update u (conversation_messages db u H0) db from rfl]
    rw [mark_read_update_noop hread2]

theorem mark_read_and_idempotent_witness :
    (∀ c ∈ ([msgHead, msgReply] : List Message), c.receiver = 1 →
      ∀ m ∈ ([msgHead, { msgReply with is_read := true }] : List Message),
        m.id = c.id → m.is_read = true) ∧
    message_detail_view [msgHead, { msgReply with is_read := true }] 1 1 =
      some (markF 1 [msgHead, msgReply] msgHead,
        ([msgHead, msgReply] : List Message).map (markF 1 [msgHead, msgReply]),
        [msgHead, { msgReply with is_read := true }]) :=
  mark_read_and_idempotent dbGood 1 1 msgHead [msgHead, msgReply]
    [msgHead, { msgReply with is_read := true }] (by decide) (by decide)
